import Mathlib

set_option maxRecDepth 4000

/-!
Verification of the Ring block-production and consensus core
(`src/pow.cpp`, `src/miner.cpp`): difficulty retargeting for PoW and Hive
blocks, the Hive proof validator's value checks, the block assembler's
failure handling and package-selection loop, extra-nonce handling and the
PoW nonce scan.  Machine integers are modelled as `Nat`/`Int`; 256-bit
`arith_uint256` arithmetic is taken modulo `2 ^ 256`, and narrowing casts
to 32-bit quantities are taken modulo `2 ^ 32`.  Monetary amounts
(`CAmount`, an `int64_t`) are modelled as `Nat`: every amount the checked
code reads comes from a transaction output, which consensus constrains to
be non-negative.
-/

/-- Consensus parameters (`Consensus::Params`): the subset of fields read by
the code under verification.  `nPowTargetSpacing` is a C++ `int64_t`, the
other numeric fields are heights, counts, factors or 256-bit limits, all
non-negative. -/
structure ConsensusParams where
  powLimit : Nat
  powLimitInitialDistribution : Nat
  lastInitialDistributionHeight : Nat
  nPowTargetSpacing : Int
  fPowAllowMinDifficultyBlocks : Bool
  powLimitHive : Nat
  hiveDifficultyWindow : Nat
  minHiveCheckBlock : Nat
  hiveBlockSpacingTarget : Nat
  hiveNonceMarker : Nat
  popNonceMarker : Nat
  communityContribFactor : Nat
  dwarfCost : Nat

/-- Per-block data read from a `CBlockIndex` / `CBlockHeader` by the code
under verification: the header nonce, the compact difficulty bits and the
block time.  A chain is a `List BlockIndexData` whose head is the tip and
whose `tail` is the `pprev` chain. -/
structure BlockIndexData where
  nNonce : Nat
  nBits : Nat
  nTime : Int
deriving DecidableEq

/-- Modelled from the spec: `CBlockHeader::IsHiveMined` (not under `src/`).
The spec fixes the header nonce marker: `nNonce` is set to
`hiveNonceMarker` for Hive blocks. -/
def IsHiveMined (p : ConsensusParams) (b : BlockIndexData) : Bool :=
  b.nNonce == p.hiveNonceMarker

/-- Modelled from the spec: `CBlockHeader::IsPopMined` (not under `src/`).
The spec fixes the header nonce marker: `nNonce` is set to
`popNonceMarker` for Pop blocks. -/
def IsPopMined (p : ConsensusParams) (b : BlockIndexData) : Bool :=
  b.nNonce == p.popNonceMarker

/-- The modulus of 256-bit `arith_uint256` arithmetic. -/
def U256 : Nat := 2 ^ 256

/-- Modelled from the spec: `arith_uint256::SetCompact` (the codec for the
"compact difficulty bits" of the data model; `arith_uint256` is not under
`src/`).  Returns the 256-bit value encoded by the compact field `nBits`:
a size byte in the top 8 bits and a 23-bit mantissa shifted accordingly. -/
def SetCompactValue (nCompact : Nat) : Nat :=
  let nSize := nCompact >>> 24
  let nWord := nCompact &&& 0x007fffff
  if nSize ≤ 3 then nWord >>> (8 * (3 - nSize)) else (nWord <<< (8 * (nSize - 3))) % U256

/-- Number of significant bits, by halving with fuel (kernel-reducible). -/
def bitsLenAux : Nat → Nat → Nat
  | 0, _ => 0
  | fuel + 1, x => if x = 0 then 0 else bitsLenAux fuel (x / 2) + 1

/-- Number of significant bits of a 256-bit value (`base_uint::bits`);
exact for every value below `2 ^ 256`, the `arith_uint256` range. -/
def bitsLen (x : Nat) : Nat :=
  bitsLenAux 256 x

/-- Modelled from the spec: `arith_uint256::GetCompact` (the inverse codec
for the "compact difficulty bits"; `arith_uint256` is not under `src/`),
for non-negative values. -/
def GetCompact (x : Nat) : Nat :=
  let nSize := (bitsLen x + 7) / 8
  let nCompact := if nSize ≤ 3 then (x % 2 ^ 64) <<< (8 * (3 - nSize)) else (x >>> (8 * (nSize - 3))) % 2 ^ 64
  let adjusted := if nCompact &&& 0x00800000 ≠ 0 then (nCompact >>> 8, nSize + 1) else (nCompact, nSize)
  adjusted.1 ||| (adjusted.2 <<< 24)

/-!
Hive proof validator, value checks (`CheckHiveProof`, `src/pow.cpp`
lines 425-518).  The stages below embed, in source order: the
community-donation check with its update of `dctValue` (lines 456-464),
and the dwarf-count check (lines 503-518).  The checks between them
(claimed height, maturity, DCT script, reward address; lines 468-501) do
not touch `dctValue` and are abstracted as a boolean `midChecksOk`.
-/

/-- Community-contribution stage of `CheckHiveProof` (`src/pow.cpp`
lines 425-465): when `communityContrib` is set, the donation output is
accepted exactly when `donationAmount` equals
`(dctValue + donationAmount) / communityContribFactor` under C++ integer
division, and on acceptance the donation is added back to `dctValue`.
Returns the effective `dctValue` on success and `none` on rejection. -/
def checkHiveProofDonation (p : ConsensusParams) (dctValue donationAmount : Nat)
    (communityContrib : Bool) : Option Nat :=
  if communityContrib then
    let expectedDonationAmount := (dctValue + donationAmount) / p.communityContribFactor
    if donationAmount ≠ expectedDonationAmount then none
    else some (dctValue + donationAmount)
  else some dctValue

/-- Dwarf-count stage of `CheckHiveProof` (`src/pow.cpp` lines 503-518):
reject when `dctValue < dwarfCost`; otherwise compute
`unsigned int dwarfCount = dctValue / dwarfCost`, which truncates the
`int64_t` quotient to 32 bits, and reject when `dwarfNonce >= dwarfCount`.
Returns `true` when the proof passes this stage. -/
def checkHiveProofDwarfCount (p : ConsensusParams) (dctValue dwarfNonce : Nat) : Bool :=
  if dctValue < p.dwarfCost then false
  else if dwarfNonce ≥ dctValue / p.dwarfCost % 2 ^ 32 then false else true

/-- Value-check pipeline of `CheckHiveProof` (`src/pow.cpp` lines 425-518)
in source order: donation check (possibly updating `dctValue`), then the
abstracted intermediate checks, then the dwarf-count check. -/
def checkHiveProofValueChecks (p : ConsensusParams) (dctValue donationAmount : Nat)
    (communityContrib : Bool) (midChecksOk : Bool) (dwarfNonce : Nat) : Bool :=
  match checkHiveProofDonation p dctValue donationAmount communityContrib with
  | none => false
  | some effectiveValue =>
    if midChecksOk then checkHiveProofDwarfCount p effectiveValue dwarfNonce else false

/-- Concrete consensus parameters used for counterexamples and witnesses. -/
def demoParams : ConsensusParams where
  powLimit := 2 ^ 224
  powLimitInitialDistribution := 2 ^ 230
  lastInitialDistributionHeight := 0
  nPowTargetSpacing := 2
  fPowAllowMinDifficultyBlocks := false
  powLimitHive := 2 ^ 230
  hiveDifficultyWindow := 2
  minHiveCheckBlock := 1
  hiveBlockSpacingTarget := 2
  hiveNonceMarker := 7
  popNonceMarker := 8
  communityContribFactor := 10
  dwarfCost := 1

/-- C1 counterexample: with `communityContribFactor = 10`, a DCT value of
`10` and a donation of `1`, the validator accepts the donation (since
`(10 + 1) / 10 = 1`) although `1 * (10 - 1) = 9 ≠ 10`, so the acceptance
condition is not equivalent to
`donationAmount * (communityContribFactor - 1) == dctValue` as the claim
asserts. -/
theorem checkHiveProofDonation_not_iff_product :
    ¬ (((checkHiveProofDonation demoParams 10 1 true).isSome = true) ↔
        1 * (demoParams.communityContribFactor - 1) = 10) := by
  decide

/-- C1 (amended): the validator accepts the community donation exactly when
`donationAmount = (dctValue + donationAmount) / communityContribFactor`
under integer division; `donationAmount * (communityContribFactor - 1) =
dctValue` implies acceptance (but not conversely); and on acceptance the
donation is added to `dctValue` before the dwarf count is computed. -/
theorem checkHiveProofDonation_spec (p : ConsensusParams) (dctValue donationAmount dwarfNonce : Nat)
    (hF : 0 < p.communityContribFactor) :
    ((checkHiveProofDonation p dctValue donationAmount true).isSome = true ↔
      donationAmount = (dctValue + donationAmount) / p.communityContribFactor) ∧
    (donationAmount * (p.communityContribFactor - 1) = dctValue →
      checkHiveProofDonation p dctValue donationAmount true = some (dctValue + donationAmount)) ∧
    (∀ v, checkHiveProofDonation p dctValue donationAmount true = some v →
      v = dctValue + donationAmount ∧
      checkHiveProofValueChecks p dctValue donationAmount true true dwarfNonce =
        checkHiveProofDwarfCount p (dctValue + donationAmount) dwarfNonce) := by
  have hform : checkHiveProofDonation p dctValue donationAmount true =
      if donationAmount = (dctValue + donationAmount) / p.communityContribFactor
      then some (dctValue + donationAmount) else none := by
    simp only [checkHiveProofDonation, ne_eq, ite_not, if_true]
  by_cases hd : donationAmount = (dctValue + donationAmount) / p.communityContribFactor
  · rw [hform, if_pos hd]
    refine ⟨iff_of_true rfl hd, fun _ => rfl, ?_⟩
    intro v hv
    have hv' : v = dctValue + donationAmount := (Option.some.injEq _ _).mp hv.symm
    refine ⟨hv', ?_⟩
    unfold checkHiveProofValueChecks
    rw [hform, if_pos hd]
    rfl
  · rw [hform, if_neg hd]
    refine ⟨iff_of_false (by simp) hd, ?_, by intro v hv; exact absurd hv (by simp)⟩
    intro hprod
    exfalso
    apply hd
    obtain ⟨g, hg⟩ : ∃ g, p.communityContribFactor = g + 1 :=
      ⟨p.communityContribFactor - 1, by omega⟩
    have hsum : dctValue + donationAmount = donationAmount * (g + 1) := by
      rw [← hprod, hg]
      have : g + 1 - 1 = g := rfl
      rw [this]
      ring
    rw [hsum, hg, Nat.mul_div_cancel _ (by omega)]

/-- C1 witness: concrete run of the amended theorem at
`dctValue = 18`, `donation = 2`, factor `10` (here `2 * 9 = 18`, so the
product condition holds and the donation is accepted, yielding an
effective value of `20`). -/
theorem checkHiveProofDonation_spec_witness :
    0 < demoParams.communityContribFactor ∧
    ((checkHiveProofDonation demoParams 18 2 true).isSome = true ↔
      2 = (18 + 2) / demoParams.communityContribFactor) ∧
    (2 * (demoParams.communityContribFactor - 1) = 18 →
      checkHiveProofDonation demoParams 18 2 true = some (18 + 2)) ∧
    (∀ v, checkHiveProofDonation demoParams 18 2 true = some v →
      v = 18 + 2 ∧
      checkHiveProofValueChecks demoParams 18 2 true true 0 =
        checkHiveProofDwarfCount demoParams (18 + 2) 0) :=
  ⟨by decide, checkHiveProofDonation_spec demoParams 18 2 0 (by decide)⟩

/-- C3 counterexample: with `dwarfCost = 1` and `dctValue = 2 ^ 32`, the
mathematical quotient is `2 ^ 32` but the `unsigned int` cast truncates
`dwarfCount` to `0`, so the proof with `dwarfNonce = 0` is rejected even
though neither `dctValue < dwarfCost` nor
`dwarfNonce ≥ dctValue / dwarfCost` holds: rejection is not equivalent to
the claimed condition. -/
theorem checkHiveProofDwarfCount_not_iff_quotient :
    ¬ ((checkHiveProofDwarfCount demoParams (2 ^ 32) 0 = false) ↔
        (2 ^ 32 < demoParams.dwarfCost ∨ 2 ^ 32 / demoParams.dwarfCost ≤ 0)) := by
  decide

/-- C3 (amended): the dwarf-count stage computes
`dwarfCount = dctValue / dwarfCost % 2 ^ 32` (the `int64_t` quotient is
truncated to `unsigned int`) and accepts exactly when
`dwarfCost ≤ dctValue` and `dwarfNonce < dwarfCount`; in particular a
proof with `dwarfNonce` equal to the truncated quotient is rejected. -/
theorem checkHiveProofDwarfCount_spec (p : ConsensusParams) (dctValue dwarfNonce : Nat) :
    (checkHiveProofDwarfCount p dctValue dwarfNonce = true ↔
      (p.dwarfCost ≤ dctValue ∧ dwarfNonce < dctValue / p.dwarfCost % 2 ^ 32)) ∧
    (dwarfNonce = dctValue / p.dwarfCost % 2 ^ 32 →
      checkHiveProofDwarfCount p dctValue dwarfNonce = false) := by
  unfold checkHiveProofDwarfCount
  constructor
  · split_ifs with h1 h2
    · simp
      omega
    · simp
      omega
    · simp
      omega
  · intro hEq
    split_ifs with h1 h2
    · rfl
    · rfl
    · omega

/-- C3 witness: concrete run of the amended theorem at `dctValue = 10`,
`dwarfNonce = 3`, `dwarfCost = 1` (accepted: `3 < 10`), and the rejection
of `dwarfNonce = 10 = dwarfCount`. -/
theorem checkHiveProofDwarfCount_spec_witness :
    (checkHiveProofDwarfCount demoParams 10 3 = true ↔
      (demoParams.dwarfCost ≤ 10 ∧ 3 < 10 / demoParams.dwarfCost % 2 ^ 32)) ∧
    checkHiveProofDwarfCount demoParams 10 10 = false :=
  ⟨(checkHiveProofDwarfCount_spec demoParams 10 3).1,
   (checkHiveProofDwarfCount_spec demoParams 10 10).2 (by decide)⟩

/-!
Block assembler failure handling (`BlockAssembler::CreateNewBlock`,
`src/miner.cpp` lines 114-271).  The final validity gate at lines 258-265
runs `TestBlockValidity` on the assembled block; its outcome depends only
on which proof-script pointer was passed in.
-/

/-- Outcome of the tail of `CreateNewBlock`: the assembled template is
returned, a null template is returned, or a `std::runtime_error` is
thrown. -/
inductive AssembleOutcome where
  | template
  | nullTemplate
  | thrown
deriving DecidableEq

/-- Final validity gate of `BlockAssembler::CreateNewBlock`
(`src/miner.cpp` lines 258-265): if `TestBlockValidity` succeeds the
template is returned; on failure the function returns null when a Pop
proof script was passed (`popProofScript` non-null) and throws otherwise.
The two `Bool` arguments model non-nullness of the `hiveProofScript` and
`popProofScript` pointer arguments. -/
def createNewBlockValidityGate (hiveProofScript popProofScript : Bool)
    (testBlockValidityOk : Bool) : AssembleOutcome :=
  if testBlockValidityOk then .template
  else if popProofScript then .nullTemplate
  else .thrown

/-- C2 counterexample: in Hive mode (`hiveProofScript` non-null,
`popProofScript` null) a `TestBlockValidity` failure throws a hard error;
it does not return an empty template as the claim states. -/
theorem createNewBlockValidityGate_hive_throws :
    createNewBlockValidityGate true false false = AssembleOutcome.thrown ∧
    AssembleOutcome.thrown ≠ AssembleOutcome.nullTemplate := by
  decide

/-- C2 (amended): when `TestBlockValidity` fails at the end of block
assembly, `CreateNewBlock` raises a hard error in PoW mode and in Hive
mode, and only in Pop mode does it return an empty template (null)
without throwing; on success the template is returned in every mode. -/
theorem createNewBlockValidityGate_spec (hiveProofScript popProofScript : Bool) :
    createNewBlockValidityGate hiveProofScript popProofScript true = AssembleOutcome.template ∧
    createNewBlockValidityGate hiveProofScript popProofScript false =
      (if popProofScript then AssembleOutcome.nullTemplate else AssembleOutcome.thrown) := by
  cases popProofScript <;> simp [createNewBlockValidityGate]

/-!
Entry of the Hive proof validator (`CheckHiveProof`, `src/pow.cpp`
lines 245-258).  The C++ code reads
`pindexPrev = mapBlockIndex[pblock->hashPrevBlock]` (a `std::map`
subscript, which yields a null pointer for an absent key), immediately
dereferences it to compute `blockHeight = pindexPrev->nHeight + 1`, and
only then tests `if (!pindexPrev)`.
-/

/-- Outcome of the validator's entry sequence: an undefined-behaviour
fault from dereferencing a null `CBlockIndex*`, the guarded rejection
branch at `src/pow.cpp` line 253, or normal continuation carrying the
computed `blockHeight`. -/
inductive HiveEntryOutcome where
  | fault
  | rejectNoPrev
  | proceed (blockHeight : Nat)
deriving DecidableEq

/-- Entry sequence of `CheckHiveProof` (`src/pow.cpp` lines 245-258).
`mapBlockIndex` maps a block hash to the height stored in its
`CBlockIndex` (`none` models the null pointer that `std::map::operator[]`
yields for an absent key).  The match models the dereference
`pindexPrev->nHeight + 1`, performed before the null test. -/
def checkHiveProofEntry (mapBlockIndex : Nat → Option Nat) (hashPrevBlock : Nat) :
    HiveEntryOutcome :=
  match mapBlockIndex hashPrevBlock with
  | none => .fault
  | some prevHeight =>
    if mapBlockIndex hashPrevBlock = none then .rejectNoPrev
    else .proceed (prevHeight + 1)

/-- C9: for every block whose `hashPrevBlock` is absent from the block
index, the entry sequence of `CheckHiveProof` faults at the dereference
of the null `pindexPrev`, and the guarded branch returning false with
"Couldn't get previous block's CBlockIndex!" is unreachable for every
input. -/
theorem checkHiveProofEntry_spec (mapBlockIndex : Nat → Option Nat) (hashPrevBlock : Nat) :
    (mapBlockIndex hashPrevBlock = none →
      checkHiveProofEntry mapBlockIndex hashPrevBlock = HiveEntryOutcome.fault) ∧
    checkHiveProofEntry mapBlockIndex hashPrevBlock ≠ HiveEntryOutcome.rejectNoPrev := by
  cases h : mapBlockIndex hashPrevBlock <;> simp [checkHiveProofEntry, h]

/-- C9 witness: with an empty block index and previous-block hash `0`, the
entry sequence faults and does not take the guarded rejection branch. -/
theorem checkHiveProofEntry_spec_witness :
    checkHiveProofEntry (fun _ => none) 0 = HiveEntryOutcome.fault ∧
    checkHiveProofEntry (fun _ => none) 0 ≠ HiveEntryOutcome.rejectNoPrev :=
  ⟨(checkHiveProofEntry_spec (fun _ => none) 0).1 rfl,
   (checkHiveProofEntry_spec (fun _ => none) 0).2⟩

/-!
Consecutive-Hive-block counting.  The validator (`CheckHiveProof`,
`src/pow.cpp` lines 266-278) walks back from the previous block while the
block is Hive-mined, counting every step; the Hive miner's pre-check
(`BusyDwarves`, `src/miner.cpp` lines 917-930) walks back while the block
is Hive-mined or Pop-mined, counting only the Hive-mined ones.  Both loops
assert that a predecessor exists before stepping back; `none` models that
assertion failing when the walk reaches the chain start.
-/

/-- Trailing-Hive-block count of the validator `CheckHiveProof`
(`src/pow.cpp` lines 266-274): count while blocks are Hive-mined. -/
def hiveBlocksSincePowValidator (p : ConsensusParams) : List BlockIndexData → Option Nat
  | [] => some 0
  | b :: rest =>
    if IsHiveMined p b then
      if rest.isEmpty then none
      else (hiveBlocksSincePowValidator p rest).map (· + 1)
    else some 0

/-- Trailing-Hive-block count of the Hive miner's pre-check in
`BusyDwarves` (`src/miner.cpp` lines 917-926): walk while blocks are
Pop-mined or Hive-mined, counting only the Hive-mined ones. -/
def hiveBlocksSincePowMiner (p : ConsensusParams) : List BlockIndexData → Option Nat
  | [] => some 0
  | b :: rest =>
    if IsPopMined p b || IsHiveMined p b then
      if rest.isEmpty then none
      else (hiveBlocksSincePowMiner p rest).map (fun c => (if IsHiveMined p b then 1 else 0) + c)
    else some 0

/-- A chain whose trailing run is Hive, Pop, Hive, PoW (with `demoParams`:
nonce 7 marks Hive, 8 marks Pop). -/
def popBetweenHiveChain : List BlockIndexData :=
  [⟨7, 0, 0⟩, ⟨8, 0, 0⟩, ⟨7, 0, 0⟩, ⟨0, 0, 0⟩]

/-- C10 counterexample: on a chain whose trailing blocks are Hive, Pop,
Hive, PoW, the miner's pre-check counts 2 Hive blocks (it walks across the
Pop block) while the validator counts 1 (it stops at the Pop block), so
the two counts are not equal for every chain state. -/
theorem hiveBlocksSincePow_not_equal :
    hiveBlocksSincePowMiner demoParams popBetweenHiveChain ≠
      hiveBlocksSincePowValidator demoParams popBetweenHiveChain := by
  decide

/-- C10 (amended): for every chain state the miner's count is at least the
validator's count, and the two counts (including the assertion-failure
outcome) coincide whenever no Pop-mined block occurs in the trailing run
of Hive-or-Pop-mined blocks; hence the miner's `maxConsecutiveHiveBlocks`
pre-check can only be stricter than the validator's, and agrees with it on
chains without Pop blocks among the trailing Hive blocks. -/
theorem hiveBlocksSincePow_miner_ge_validator (p : ConsensusParams)
    (chain : List BlockIndexData) :
    (∀ v m, hiveBlocksSincePowValidator p chain = some v →
      hiveBlocksSincePowMiner p chain = some m → v ≤ m) ∧
    ((∀ b ∈ chain.takeWhile (fun b => IsPopMined p b || IsHiveMined p b),
        IsPopMined p b = false) →
      hiveBlocksSincePowMiner p chain = hiveBlocksSincePowValidator p chain) := by
  induction chain with
  | nil =>
    constructor
    · intro v m hv hm
      simp [hiveBlocksSincePowValidator] at hv
      simp [hiveBlocksSincePowMiner] at hm
      omega
    · intro _
      rfl
  | cons b rest ih =>
    by_cases hh : IsHiveMined p b
    · have hor : (IsPopMined p b || IsHiveMined p b) = true := by simp [hh]
      have htw : List.takeWhile (fun c => IsPopMined p c || IsHiveMined p c) (b :: rest)
          = b :: List.takeWhile (fun c => IsPopMined p c || IsHiveMined p c) rest := by
        simp [List.takeWhile_cons, hor]
      by_cases he : rest.isEmpty
      · constructor
        · intro v m hv hm
          simp [hiveBlocksSincePowValidator, hh, he] at hv
        · intro _
          simp [hiveBlocksSincePowValidator, hiveBlocksSincePowMiner, hh, hor, he]
      · constructor
        · intro v m hv hm
          simp only [hiveBlocksSincePowValidator, hiveBlocksSincePowMiner, hh, hor, he,
            if_true, Bool.false_eq_true, if_false] at hv hm
          cases hv' : hiveBlocksSincePowValidator p rest with
          | none => rw [hv'] at hv; simp at hv
          | some v' =>
            cases hm' : hiveBlocksSincePowMiner p rest with
            | none => rw [hm'] at hm; simp at hm
            | some m' =>
              rw [hv'] at hv
              rw [hm'] at hm
              simp at hv hm
              have := ih.1 v' m' hv' hm'
              omega
        · intro hnp
          have hnp' : ∀ x ∈ rest.takeWhile (fun c => IsPopMined p c || IsHiveMined p c),
              IsPopMined p x = false := by
            intro x hx
            apply hnp
            rw [htw]
            exact List.mem_cons_of_mem _ hx
          have heq := ih.2 hnp'
          simp only [hiveBlocksSincePowValidator, hiveBlocksSincePowMiner, hh, hor, he,
            if_true, Bool.false_eq_true, if_false]
          rw [heq]
          cases hiveBlocksSincePowValidator p rest with
          | none => simp
          | some v' => simp [Nat.add_comm, hh]
    · by_cases hp : IsPopMined p b
      · have hor : (IsPopMined p b || IsHiveMined p b) = true := by simp [hp]
        have htw : List.takeWhile (fun c => IsPopMined p c || IsHiveMined p c) (b :: rest)
            = b :: List.takeWhile (fun c => IsPopMined p c || IsHiveMined p c) rest := by
          simp [List.takeWhile_cons, hor]
        constructor
        · intro v m hv hm
          have hv0 : v = 0 := by
            simp [hiveBlocksSincePowValidator, hh] at hv
            omega
          omega
        · intro hnp
          exfalso
          have hb : b ∈ (b :: rest).takeWhile (fun c => IsPopMined p c || IsHiveMined p c) := by
            rw [htw]
            exact List.mem_cons_self _ _
          have := hnp b hb
          rw [hp] at this
          simp at this
      · constructor
        · intro v m hv hm
          simp [hiveBlocksSincePowValidator, hh] at hv
          simp [hiveBlocksSincePowMiner, hh, hp] at hm
          omega
        · intro _
          simp [hiveBlocksSincePowValidator, hiveBlocksSincePowMiner, hh, hp]

/-- A chain whose trailing run is a single Hive block before a PoW block. -/
def hiveThenPowChain : List BlockIndexData :=
  [⟨7, 0, 0⟩, ⟨0, 0, 0⟩]

/-- C10 witness: concrete run of the amended theorem on a Hive-then-PoW
chain, where both counts are defined and equal to 1. -/
theorem hiveBlocksSincePow_miner_ge_validator_witness :
    (1 : Nat) ≤ 1 ∧
    hiveBlocksSincePowMiner demoParams hiveThenPowChain =
      hiveBlocksSincePowValidator demoParams hiveThenPowChain :=
  ⟨(hiveBlocksSincePow_miner_ge_validator demoParams hiveThenPowChain).1 1 1
      (by decide) (by decide),
   (hiveBlocksSincePow_miner_ge_validator demoParams hiveThenPowChain).2 (by decide)⟩

/-!
Package selection loop (`BlockAssembler::addPackageTxs`, `src/miner.cpp`
lines 398-526).  The loop state tracked by the termination heuristic is
the consecutive-failure counter, the running block weight and the number
of selected packages; the evaluation of one candidate package is
abstracted as a `PackageEvent` (the mempool's multi-index machinery is
external to the sources).  `resetBlock` (lines 94-107) initialises
`nBlockWeight = 4000`.
-/

/-- Outcome of evaluating one candidate package inside `addPackageTxs`:
a stale entry skipped at lines 422-425, the feerate early-return at
lines 467-470, a `TestPackage` weight/sigops failure (lines 472-489), a
`TestPackageTransactions` finality/witness/DCT failure (lines 500-506), or
an admitted package of the given extra weight (lines 508-524). -/
inductive PackageEvent where
  | skipEntry
  | belowMinFee
  | packageTestFail
  | txTestFail
  | added (weight : Nat)
deriving DecidableEq

/-- Loop state of `addPackageTxs` relevant to the termination heuristic. -/
structure AddPackageState where
  nConsecutiveFailed : Nat
  nBlockWeight : Nat
  nPackagesSelected : Nat
deriving DecidableEq

/-- Result of one loop iteration: continue with a new state, return from
the function (feerate cutoff), or break out of the loop (give-up
heuristic). -/
inductive LoopStep where
  | continueLoop (s : AddPackageState)
  | returnLoop (s : AddPackageState)
  | breakLoop (s : AddPackageState)
deriving DecidableEq

/-- One iteration of the `addPackageTxs` loop (`src/miner.cpp`
lines 419-525), given the evaluation outcome of the candidate package.  On
a `TestPackage` failure the code increments `nConsecutiveFailed` and
breaks when `nConsecutiveFailed > MAX_CONSECUTIVE_FAILURES` (= 1000) and
`nBlockWeight > nBlockMaxWeight - 4000`; on an admitted package it resets
`nConsecutiveFailed = 0` (line 509) and adds the package weight. -/
def addPackageTxsStep (nBlockMaxWeight : Nat) (s : AddPackageState) :
    PackageEvent → LoopStep
  | .skipEntry => .continueLoop s
  | .belowMinFee => .returnLoop s
  | .packageTestFail =>
    if 1000 < s.nConsecutiveFailed + 1 ∧ nBlockMaxWeight - 4000 < s.nBlockWeight then
      .breakLoop { s with nConsecutiveFailed := s.nConsecutiveFailed + 1 }
    else .continueLoop { s with nConsecutiveFailed := s.nConsecutiveFailed + 1 }
  | .txTestFail => .continueLoop s
  | .added w =>
    .continueLoop { nConsecutiveFailed := 0, nBlockWeight := s.nBlockWeight + w,
                    nPackagesSelected := s.nPackagesSelected + 1 }

/-- Run of the `addPackageTxs` loop over a sequence of candidate-package
evaluation outcomes; returns the final state and the number of candidates
the loop actually processed before returning, breaking or running out. -/
def addPackageTxsRun (nBlockMaxWeight : Nat) :
    AddPackageState → List PackageEvent → AddPackageState × Nat
  | s, [] => (s, 0)
  | s, e :: rest =>
    match addPackageTxsStep nBlockMaxWeight s e with
    | .continueLoop s' =>
      let r := addPackageTxsRun nBlockMaxWeight s' rest
      (r.1, r.2 + 1)
    | .returnLoop s' => (s', 1)
    | .breakLoop s' => (s', 1)

/-- Initial loop state set up by `resetBlock` (`src/miner.cpp`
lines 94-107): 4000 weight units reserved for the coinbase. -/
def resetBlockState : AddPackageState := ⟨0, 4000, 0⟩

/-- Running the loop over `k` consecutive `TestPackage` failures, starting
from a counter that stays within `MAX_CONSECUTIVE_FAILURES`, never breaks:
it adds `k` to the counter and processes the remaining candidates. -/
theorem addPackageTxsRun_replicate_failures (mw : Nat) (rest : List PackageEvent) :
    ∀ (k : Nat) (s : AddPackageState), s.nConsecutiveFailed + k ≤ 1000 →
    addPackageTxsRun mw s (List.replicate k PackageEvent.packageTestFail ++ rest) =
      ((addPackageTxsRun mw
          ⟨s.nConsecutiveFailed + k, s.nBlockWeight, s.nPackagesSelected⟩ rest).1,
       (addPackageTxsRun mw
          ⟨s.nConsecutiveFailed + k, s.nBlockWeight, s.nPackagesSelected⟩ rest).2 + k) := by
  intro k
  induction k with
  | zero =>
    intro s hk
    simp
  | succ k ih =>
    intro s hk
    have hcond : ¬(1000 < s.nConsecutiveFailed + 1 ∧ mw - 4000 < s.nBlockWeight) := by
      rintro ⟨h1, _⟩
      omega
    rw [List.replicate_succ, List.cons_append]
    simp only [addPackageTxsRun, addPackageTxsStep, if_neg hcond]
    rw [ih ⟨s.nConsecutiveFailed + 1, s.nBlockWeight, s.nPackagesSelected⟩ (by simp; omega)]
    have harith : s.nConsecutiveFailed + 1 + k = s.nConsecutiveFailed + (k + 1) := by omega
    simp [harith]
    omega

/-- C8 counterexample: with `nBlockMaxWeight = 4000` (so
`nBlockWeight > nBlockMaxWeight - 4000` holds throughout), after exactly
1000 consecutive admission failures the loop does not stop: it processes a
further candidate and admits it (1001 candidates processed, 1 package
selected), because the code breaks only when the counter strictly exceeds
1000. -/
theorem addPackageTxs_no_stop_at_1000 :
    (addPackageTxsRun 4000 resetBlockState
      (List.replicate 1000 PackageEvent.packageTestFail ++
        [PackageEvent.added 100])).1.nPackagesSelected = 1 ∧
    (addPackageTxsRun 4000 resetBlockState
      (List.replicate 1000 PackageEvent.packageTestFail ++
        [PackageEvent.added 100])).2 = 1001 := by
  rw [addPackageTxsRun_replicate_failures 4000 [PackageEvent.added 100] 1000
    resetBlockState (by decide)]
  decide

/-- C8 (amended): a `TestPackage` admission failure breaks the
`addPackageTxs` loop exactly when the incremented consecutive-failure
counter strictly exceeds `MAX_CONSECUTIVE_FAILURES` (= 1000) — i.e. on the
1001st consecutive failure, not the 1000th — and
`nBlockWeight > nBlockMaxWeight - 4000`; the counter is reset to zero each
time a package is admitted; and a break stops the loop immediately (no
further candidate is processed). -/
theorem addPackageTxsStep_spec (nBlockMaxWeight : Nat) (s : AddPackageState) :
    ((∃ s', addPackageTxsStep nBlockMaxWeight s PackageEvent.packageTestFail =
        LoopStep.breakLoop s') ↔
      (1000 < s.nConsecutiveFailed + 1 ∧ nBlockMaxWeight - 4000 < s.nBlockWeight)) ∧
    (∀ w, addPackageTxsStep nBlockMaxWeight s (PackageEvent.added w) =
      LoopStep.continueLoop ⟨0, s.nBlockWeight + w, s.nPackagesSelected + 1⟩) ∧
    (∀ s' rest, addPackageTxsStep nBlockMaxWeight s PackageEvent.packageTestFail =
        LoopStep.breakLoop s' →
      addPackageTxsRun nBlockMaxWeight s (PackageEvent.packageTestFail :: rest) = (s', 1)) := by
  refine ⟨?_, fun w => rfl, ?_⟩
  · unfold addPackageTxsStep
    split_ifs with h
    · exact ⟨fun _ => h, fun _ => ⟨_, rfl⟩⟩
    · constructor
      · rintro ⟨s', hs'⟩
        simp at hs'
      · intro hh
        exact absurd hh h
  · intro s' rest hbrk
    unfold addPackageTxsRun
    rw [hbrk]

/-- C8 witness: concrete run of the amended theorem at a state with 1000
recorded failures and weight above the threshold: the next `TestPackage`
failure breaks the loop, an admitted package resets the counter, and the
break consumes exactly one candidate. -/
theorem addPackageTxsStep_spec_witness :
    (∃ s', addPackageTxsStep 4000 ⟨1000, 10000, 0⟩ PackageEvent.packageTestFail =
      LoopStep.breakLoop s') ∧
    addPackageTxsStep 4000 ⟨1000, 10000, 0⟩ (PackageEvent.added 5) =
      LoopStep.continueLoop ⟨0, 10005, 1⟩ ∧
    addPackageTxsRun 4000 ⟨1000, 10000, 0⟩ [PackageEvent.packageTestFail] =
      (⟨1001, 10000, 0⟩, 1) :=
  ⟨(addPackageTxsStep_spec 4000 ⟨1000, 10000, 0⟩).1.mpr (by decide),
   (addPackageTxsStep_spec 4000 ⟨1000, 10000, 0⟩).2.1 5,
   (addPackageTxsStep_spec 4000 ⟨1000, 10000, 0⟩).2.2 ⟨1001, 10000, 0⟩ [] (by decide)⟩

/-!
Extra-nonce handling (`IncrementExtraNonce`, `src/miner.cpp`
lines 528-545).  The static local `hashPrevBlock` and the caller's
`nExtraNonce` are threaded explicitly.  The coinbase scriptSig written by
the function is `push(height) push(CScriptNum(extraNonce)) || COINBASE_FLAGS`;
its byte size follows the `CScript` serialization rules.  `BlockMerkleRoot`
and `COINBASE_FLAGS` live outside the provided sources and are passed in
as parameters.
-/

/-- Modelled from the spec: byte length of the minimal `CScriptNum`
serialization of a non-negative value (`CScriptNum::serialize`, outside
`src/`): zero is the empty vector; otherwise one byte per 8 bits plus a
sign-room byte when the top bit of the top byte is set. -/
def scriptNumLen (n : Nat) : Nat :=
  if n = 0 then 0 else bitsLen n / 8 + 1

/-- Modelled from the spec: bytes appended by `CScript() << height`
(`CScript::push_int64`, outside `src/`): a single opcode for `0` and for
`1..16`, otherwise a length byte plus the `CScriptNum` serialization. -/
def heightPushSize (n : Nat) : Nat :=
  if n ≤ 16 then 1 else 1 + scriptNumLen n

/-- Coinbase scriptSig as rebuilt by `IncrementExtraNonce`
(`src/miner.cpp` line 540): block height, extra nonce, then the
`COINBASE_FLAGS` bytes. -/
structure CoinbaseScriptSig where
  nHeight : Nat
  nExtraNonce : Nat
  flags : List Nat
deriving DecidableEq

/-- Serialized size in bytes of the rebuilt coinbase scriptSig:
`push(height)`, then `push(CScriptNum(extraNonce))` (always a length byte
plus the serialization), then the flags. -/
def scriptSigSize (s : CoinbaseScriptSig) : Nat :=
  heightPushSize s.nHeight + (1 + scriptNumLen s.nExtraNonce) + s.flags.length

/-- The parts of a `CBlock` that `IncrementExtraNonce` reads or writes:
the previous-block hash, the coinbase scriptSig, the remaining
transactions (abstract ids) and the merkle root. -/
structure MinerBlock where
  hashPrevBlock : Nat
  coinbaseScriptSig : CoinbaseScriptSig
  otherTxs : List Nat
  hashMerkleRoot : Nat
deriving DecidableEq

/-- Embedding of `IncrementExtraNonce` (`src/miner.cpp` lines 528-545).
`merkleRootOf` abstracts `BlockMerkleRoot` (a function of the coinbase and
the other transactions; outside `src/`), `coinbaseFlags` abstracts
`COINBASE_FLAGS`.  `hashPrevBlockStatic` is the function-local static
`uint256 hashPrevBlock` from the previous call and `nExtraNonce` the
caller's counter.  If the stored hash differs from the block's
`hashPrevBlock` the counter is reset to 0 and the stored hash updated;
the counter is then incremented, the coinbase scriptSig rebuilt as
`height || extraNonce || COINBASE_FLAGS`, asserted to be at most 100
bytes (`none` models the assertion failing), and the merkle root
recomputed.  Returns the new stored hash, the new counter and the new
block. -/
def IncrementExtraNonce (merkleRootOf : CoinbaseScriptSig → List Nat → Nat)
    (coinbaseFlags : List Nat) (hashPrevBlockStatic nExtraNonce : Nat)
    (blk : MinerBlock) (prevHeight : Nat) : Option (Nat × Nat × MinerBlock) :=
  let st := if hashPrevBlockStatic ≠ blk.hashPrevBlock then (0, blk.hashPrevBlock)
            else (nExtraNonce, hashPrevBlockStatic)
  let newExtraNonce := st.1 + 1
  let sig : CoinbaseScriptSig := ⟨prevHeight + 1, newExtraNonce, coinbaseFlags⟩
  if scriptSigSize sig ≤ 100 then
    some (st.2, newExtraNonce,
      { blk with coinbaseScriptSig := sig, hashMerkleRoot := merkleRootOf sig blk.otherTxs })
  else none

/-- C6: whenever `IncrementExtraNonce` completes (its assertion does not
fire), the counter is reset to 0 (then incremented, like every call) iff
the block's `hashPrevBlock` differs from the hash seen at the previous
call, and otherwise it is incremented from its old value; the stored hash
afterwards is the block's `hashPrevBlock`; the coinbase scriptSig is
rebuilt as `height || extraNonce || COINBASE_FLAGS` with size at most 100
bytes; and the merkle root is recomputed from the new coinbase and the
unchanged remaining transactions. -/
theorem IncrementExtraNonce_spec (merkleRootOf : CoinbaseScriptSig → List Nat → Nat)
    (coinbaseFlags : List Nat) (hashPrevBlockStatic nExtraNonce prevHeight : Nat)
    (blk : MinerBlock) :
    ∀ st en blkNew,
      IncrementExtraNonce merkleRootOf coinbaseFlags hashPrevBlockStatic nExtraNonce
        blk prevHeight = some (st, en, blkNew) →
      en = (if hashPrevBlockStatic ≠ blk.hashPrevBlock then 0 else nExtraNonce) + 1 ∧
      st = blk.hashPrevBlock ∧
      blkNew.coinbaseScriptSig = ⟨prevHeight + 1, en, coinbaseFlags⟩ ∧
      scriptSigSize blkNew.coinbaseScriptSig ≤ 100 ∧
      blkNew.hashMerkleRoot = merkleRootOf blkNew.coinbaseScriptSig blk.otherTxs ∧
      blkNew.hashPrevBlock = blk.hashPrevBlock ∧
      blkNew.otherTxs = blk.otherTxs := by
  intro st en blkNew h
  unfold IncrementExtraNonce at h
  by_cases hch : hashPrevBlockStatic ≠ blk.hashPrevBlock
  · rw [if_pos hch] at h
    simp only [] at h
    split_ifs at h with hsz
    · simp only [Option.some.injEq, Prod.mk.injEq] at h
      obtain ⟨h1, h2, h3⟩ := h
      subst h1
      subst h2
      subst h3
      rw [if_pos hch]
      refine ⟨rfl, rfl, rfl, hsz, rfl, rfl, rfl⟩
  · rw [if_neg hch] at h
    simp only [] at h
    split_ifs at h with hsz
    · simp only [Option.some.injEq, Prod.mk.injEq] at h
      obtain ⟨h1, h2, h3⟩ := h
      subst h1
      subst h2
      subst h3
      rw [if_neg hch]
      simp only [not_ne_iff] at hch
      refine ⟨rfl, hch, rfl, hsz, rfl, rfl, rfl⟩

/-- An arbitrary concrete stand-in for `BlockMerkleRoot`. -/
def demoMerkleRootOf : CoinbaseScriptSig → List Nat → Nat :=
  fun s txs => scriptSigSize s + txs.length

/-- A concrete block for the C6 witness: previous-block hash `7`, stale
coinbase, no other transactions. -/
def demoMinerBlock : MinerBlock := ⟨7, ⟨0, 0, []⟩, [], 0⟩

/-- C6 witness: concrete call with stored hash `0 ≠ 7` and counter `5`:
the counter resets and becomes `1`, the stored hash becomes `7`, the
scriptSig is `height 101 || extraNonce 1 ||` no flags (4 bytes), and the
merkle root is recomputed. -/
theorem IncrementExtraNonce_spec_witness :
    (1 : Nat) = (if (0 : Nat) ≠ demoMinerBlock.hashPrevBlock then 0 else 5) + 1 ∧
    (7 : Nat) = demoMinerBlock.hashPrevBlock ∧
    (⟨7, ⟨101, 1, []⟩, [], 4⟩ : MinerBlock).coinbaseScriptSig = ⟨100 + 1, 1, []⟩ ∧
    scriptSigSize (⟨7, ⟨101, 1, []⟩, [], 4⟩ : MinerBlock).coinbaseScriptSig ≤ 100 ∧
    (⟨7, ⟨101, 1, []⟩, [], 4⟩ : MinerBlock).hashMerkleRoot =
      demoMerkleRootOf (⟨7, ⟨101, 1, []⟩, [], 4⟩ : MinerBlock).coinbaseScriptSig
        demoMinerBlock.otherTxs ∧
    (⟨7, ⟨101, 1, []⟩, [], 4⟩ : MinerBlock).hashPrevBlock = demoMinerBlock.hashPrevBlock ∧
    (⟨7, ⟨101, 1, []⟩, [], 4⟩ : MinerBlock).otherTxs = demoMinerBlock.otherTxs :=
  IncrementExtraNonce_spec demoMerkleRootOf [] 0 5 100 demoMinerBlock 7 1
    ⟨7, ⟨101, 1, []⟩, [], 4⟩ (by decide)

/-!
PoW nonce scan (`ScanHash`, `src/miner.cpp` lines 552-571; the claim's
`GetPowHash`-based definition).  The loop increments the 32-bit nonce,
hashes the header, returns `true` with the nonce and hash when the top two
bytes (`ByteAt(31)` and `ByteAt(30)`, the high bytes of the little-endian
`uint256`) are zero, and returns `false` when a nonce with
`(nNonce & 0xffff) == 0` is reached first.  `GetPowHash` (outside `src/`)
is abstracted as a function of the nonce, the header being fixed during
one call.
-/

/-- Byte `i` of a 256-bit value in little-endian order
(`base_blob::ByteAt`). -/
def byteAt (h i : Nat) : Nat := h / 2 ^ (8 * i) % 256

/-- Loop of `ScanHash` (`src/miner.cpp` lines 554-570) with explicit fuel:
`some (some (n, h))` models `return true` with the current nonce and hash,
`some none` models `return false`, and `none` models fuel exhaustion
(shown unreachable below).  The nonce increment wraps modulo `2 ^ 32`
(`uint32_t`), and `(nNonce & 0xffff) == 0` is `n % 65536 = 0`. -/
def scanHashAux (getPowHash : Nat → Nat) : Nat → Nat → Option (Option (Nat × Nat))
  | 0, _ => none
  | fuel + 1, nNonce =>
    let n := (nNonce + 1) % 2 ^ 32
    let h := getPowHash n
    if byteAt h 31 = 0 ∧ byteAt h 30 = 0 then some (some (n, h))
    else if n % 65536 = 0 then some none
    else scanHashAux getPowHash fuel n

/-- Embedding of `ScanHash` (`src/miner.cpp` lines 552-571): the loop
needs at most `65536` iterations from any starting nonce, so fuel `65536`
is sufficient (proved as part of the characterization). -/
def ScanHash (getPowHash : Nat → Nat) (nNonce : Nat) : Option (Option (Nat × Nat)) :=
  scanHashAux getPowHash 65536 nNonce

/-- Characterization of the fuelled scan loop: given enough fuel for the
current position within the 65536-nonce window, the loop terminates;
returns `false` exactly when every nonce tried up to and including the
next multiple of 65536 fails the two-zero-byte test; and on `true` returns
a tried nonce with its hash, whose bytes 31 and 30 are zero. -/
theorem scanHashAux_spec (getPowHash : Nat → Nat) :
    ∀ (fuel nNonce : Nat), 65536 - nNonce % 65536 ≤ fuel →
    (scanHashAux getPowHash fuel nNonce).isSome = true ∧
    (scanHashAux getPowHash fuel nNonce = some none ↔
      ∀ k, 1 ≤ k → k ≤ 65536 - nNonce % 65536 →
        ¬ (byteAt (getPowHash ((nNonce + k) % 2 ^ 32)) 31 = 0 ∧
           byteAt (getPowHash ((nNonce + k) % 2 ^ 32)) 30 = 0)) ∧
    (∀ n h, scanHashAux getPowHash fuel nNonce = some (some (n, h)) →
      h = getPowHash n ∧ byteAt h 31 = 0 ∧ byteAt h 30 = 0 ∧
      ∃ k, 1 ≤ k ∧ k ≤ 65536 - nNonce % 65536 ∧ n = (nNonce + k) % 2 ^ 32) := by
  intro fuel
  induction fuel with
  | zero =>
    intro nNonce hle
    exfalso
    have hr : nNonce % 65536 < 65536 := Nat.mod_lt _ (by norm_num)
    omega
  | succ f ih =>
    intro nNonce hle
    have hr : nNonce % 65536 < 65536 := Nat.mod_lt _ (by norm_num)
    have hmod : (nNonce + 1) % 2 ^ 32 % 65536 = (nNonce + 1) % 65536 :=
      Nat.mod_mod_of_dvd _ ⟨65536, by norm_num⟩
    by_cases hhit : byteAt (getPowHash ((nNonce + 1) % 2 ^ 32)) 31 = 0 ∧
        byteAt (getPowHash ((nNonce + 1) % 2 ^ 32)) 30 = 0
    · have hres : scanHashAux getPowHash (f + 1) nNonce =
          some (some ((nNonce + 1) % 2 ^ 32, getPowHash ((nNonce + 1) % 2 ^ 32))) := by
        simp only [scanHashAux]
        rw [if_pos hhit]
      refine ⟨by rw [hres]; rfl, ?_, ?_⟩
      · rw [hres]
        refine iff_of_false (by simp) ?_
        intro hall
        exact hall 1 (by omega) (by omega) hhit
      · intro n h heq
        rw [hres] at heq
        simp only [Option.some.injEq, Prod.mk.injEq] at heq
        obtain ⟨hn, hh⟩ := heq
        subst hn
        subst hh
        exact ⟨rfl, hhit.1, hhit.2, 1, by omega, by omega, rfl⟩
    · by_cases hb : (nNonce + 1) % 2 ^ 32 % 65536 = 0
      · have hres : scanHashAux getPowHash (f + 1) nNonce = some none := by
          simp only [scanHashAux]
          rw [if_neg hhit, if_pos hb]
        have hr65535 : nNonce % 65536 = 65535 := by
          rw [hmod] at hb
          omega
        refine ⟨by rw [hres]; rfl, ?_, ?_⟩
        · rw [hres]
          refine iff_of_true rfl ?_
          intro k hk1 hkw
          have hk : k = 1 := by omega
          subst hk
          exact hhit
        · intro n h heq
          rw [hres] at heq
          simp at heq
      · have hlt : nNonce % 65536 < 65535 := by
          rw [hmod] at hb
          omega
        have hr1 : (nNonce + 1) % 2 ^ 32 % 65536 = nNonce % 65536 + 1 := by
          rw [hmod]
          omega
        have hfle : 65536 - (nNonce + 1) % 2 ^ 32 % 65536 ≤ f := by omega
        obtain ⟨iha, ihb, ihc⟩ := ih ((nNonce + 1) % 2 ^ 32) hfle
        have hres : scanHashAux getPowHash (f + 1) nNonce =
            scanHashAux getPowHash f ((nNonce + 1) % 2 ^ 32) := by
          simp only [scanHashAux]
          rw [if_neg hhit, if_neg hb]
        have harg : ∀ k : Nat,
            ((nNonce + 1) % 2 ^ 32 + k) % 2 ^ 32 = (nNonce + (k + 1)) % 2 ^ 32 := by
          intro k
          rw [Nat.mod_add_mod]
          congr 1
          omega
        refine ⟨by rw [hres]; exact iha, ?_, ?_⟩
        · rw [hres]
          rw [ihb]
          constructor
          · intro hIH k hk1 hkw
            by_cases hk : k = 1
            · subst hk
              exact hhit
            · have := hIH (k - 1) (by omega) (by omega)
              rw [harg (k - 1)] at this
              have hk1' : k - 1 + 1 = k := by omega
              rw [hk1'] at this
              exact this
          · intro hall k hk1 hkw
            have := hall (k + 1) (by omega) (by omega)
            rw [harg k]
            exact this
        · intro n h heq
          rw [hres] at heq
          obtain ⟨h1, h2, h3, k, hk1, hkw, hn⟩ := ihc n h heq
          refine ⟨h1, h2, h3, k + 1, by omega, by omega, ?_⟩
          rw [hn, harg k]

/-- C7: for every starting nonce, `ScanHash` terminates within the current
65536-nonce window (it hands control back to the caller at least once
every 65536 nonces); it returns `false` exactly when the next nonce with
`(nNonce & 0xFFFF) == 0` is reached with every tried hash failing the test
that bytes 31 and 30 are both zero; and it returns `true` exactly
otherwise, with the current nonce (a tried one) and its hash, whose bytes
31 and 30 are both zero. -/
theorem ScanHash_spec (getPowHash : Nat → Nat) (nNonce : Nat) :
    (ScanHash getPowHash nNonce).isSome = true ∧
    (ScanHash getPowHash nNonce = some none ↔
      ∀ k, 1 ≤ k → k ≤ 65536 - nNonce % 65536 →
        ¬ (byteAt (getPowHash ((nNonce + k) % 2 ^ 32)) 31 = 0 ∧
           byteAt (getPowHash ((nNonce + k) % 2 ^ 32)) 30 = 0)) ∧
    (∀ n h, ScanHash getPowHash nNonce = some (some (n, h)) →
      h = getPowHash n ∧ byteAt h 31 = 0 ∧ byteAt h 30 = 0 ∧
      ∃ k, 1 ≤ k ∧ k ≤ 65536 - nNonce % 65536 ∧ n = (nNonce + k) % 2 ^ 32) :=
  scanHashAux_spec getPowHash 65536 nNonce (by omega)

/-- C7 witness: with the constant hash function `1` (bytes 31 and 30 both
zero), the scan from nonce 5 succeeds at once, returning nonce 6 and
hash 1; the success characterization of the theorem applies to it. -/
theorem ScanHash_spec_witness :
    (1 : Nat) = (fun _ => (1 : Nat)) 6 ∧ byteAt 1 31 = 0 ∧ byteAt 1 30 = 0 ∧
    ∃ k, 1 ≤ k ∧ k ≤ 65536 - 5 % 65536 ∧ (6 : Nat) = (5 + k) % 2 ^ 32 :=
  (ScanHash_spec (fun _ => 1) 5).2.2 6 1 (by decide)

/-!
Hive difficulty retarget (`GetNextHiveWorkRequired`, `src/pow.cpp`
lines 90-125).  The loop steps back from the previous block while fewer
than `hiveDifficultyWindow` Hive blocks have been counted, a predecessor
exists, and the height is at least `minHiveCheckBlock`; it accumulates the
Hive-block count, the total traversed count, and the sum of the
`SetCompact` targets of the Hive blocks (256-bit arithmetic).  In the list
model the block at distance `i` behind the tip has height `tipHeight - i`,
so a chain of length `tipHeight + 1` ends at the height-0 genesis block,
which is exactly the block with no predecessor.
-/

/-- The retarget walk of `GetNextHiveWorkRequired` (`src/pow.cpp`
lines 94-106), threading the accumulators `hiveBlockCount`,
`totalBlockCount` and the running target sum; `height` is the height of
the head of the remaining chain and `rest ≠ []` is the `pprev` null
check. -/
def hiveWalk (p : ConsensusParams) : List BlockIndexData → Nat → Nat → Nat → Nat → Nat × Nat × Nat
  | [], _, hiveBlockCount, totalBlockCount, targetSum => (hiveBlockCount, totalBlockCount, targetSum)
  | b :: rest, height, hiveBlockCount, totalBlockCount, targetSum =>
    if hiveBlockCount < p.hiveDifficultyWindow ∧ rest ≠ [] ∧ p.minHiveCheckBlock ≤ height then
      if IsHiveMined p b then
        hiveWalk p rest (height - 1) (hiveBlockCount + 1) (totalBlockCount + 1)
          ((targetSum + SetCompactValue b.nBits) % U256)
      else
        hiveWalk p rest (height - 1) hiveBlockCount (totalBlockCount + 1) targetSum
    else (hiveBlockCount, totalBlockCount, targetSum)

/-- Length of the window the retarget walk traverses, described by the
spec's stopping rule only: walk until `hiveDifficultyWindow` Hive blocks
have been counted or the height falls below `minHiveCheckBlock` (for
`minHiveCheckBlock ≥ 1` the genesis stop of the code is subsumed, since
height 0 is below it). -/
def hiveWindowLen (p : ConsensusParams) : List BlockIndexData → Nat → Nat → Nat
  | [], _, _ => 0
  | b :: rest, height, hiveBlockCount =>
    if hiveBlockCount < p.hiveDifficultyWindow ∧ p.minHiveCheckBlock ≤ height then
      hiveWindowLen p rest (height - 1)
        (if IsHiveMined p b then hiveBlockCount + 1 else hiveBlockCount) + 1
    else 0

/-- Embedding of `GetNextHiveWorkRequired` (`src/pow.cpp` lines 90-125):
run the walk; with no Hive block in the window return the compact
`powLimitHive`; otherwise average the summed targets, multiply by the
total traversed count (mod `2 ^ 256`), divide by
`hiveBlockCount * hiveBlockSpacingTarget`, clamp to `powLimitHive`, and
return the compact encoding. -/
def GetNextHiveWorkRequired (p : ConsensusParams) (chain : List BlockIndexData)
    (tipHeight : Nat) : Nat :=
  let w := hiveWalk p chain tipHeight 0 0 0
  if w.1 = 0 then GetCompact p.powLimitHive
  else GetCompact (min ((w.2.2 / w.1 * w.2.1) % U256 / (w.1 * p.hiveBlockSpacingTarget))
    p.powLimitHive)

/-- The fused retarget walk equals its compositional description: it
traverses the `hiveWindowLen` prefix, counts the Hive blocks in it, and
sums their `SetCompact` targets (mod `2 ^ 256`). -/
theorem hiveWalk_eq (p : ConsensusParams) (hmin : 1 ≤ p.minHiveCheckBlock) :
    ∀ (chain : List BlockIndexData) (height hc tc targetSum : Nat),
      chain.length = height + 1 → targetSum < U256 →
      hiveWalk p chain height hc tc targetSum =
        (hc + ((chain.take (hiveWindowLen p chain height hc)).filter (IsHiveMined p)).length,
         tc + hiveWindowLen p chain height hc,
         (targetSum + (((chain.take (hiveWindowLen p chain height hc)).filter
             (IsHiveMined p)).map (fun b => SetCompactValue b.nBits)).sum) % U256) := by
  intro chain
  induction chain with
  | nil =>
    intro height hc tc targetSum hlen hsum
    simp at hlen
  | cons b rest ih =>
    intro height hc tc targetSum hlen hsum
    have hrl : rest.length = height := by simpa using hlen
    have hU : 0 < U256 := by norm_num [U256]
    by_cases hcond : hc < p.hiveDifficultyWindow ∧ p.minHiveCheckBlock ≤ height
    · have hne : rest ≠ [] := by
        intro hemp
        rw [hemp] at hrl
        simp at hrl
        omega
      have hcondA : hc < p.hiveDifficultyWindow ∧ rest ≠ [] ∧ p.minHiveCheckBlock ≤ height :=
        ⟨hcond.1, hne, hcond.2⟩
      have hrl' : rest.length = (height - 1) + 1 := by omega
      by_cases hhive : IsHiveMined p b = true
      · rw [hiveWalk, if_pos hcondA, if_pos hhive,
           ih (height - 1) (hc + 1) (tc + 1) ((targetSum + SetCompactValue b.nBits) % U256)
             hrl' (Nat.mod_lt _ hU),
           hiveWindowLen, if_pos hcond, if_pos hhive]
        rw [List.take_succ_cons, List.filter_cons_of_pos hhive]
        simp only [List.length_cons, List.map_cons, List.sum_cons, Prod.mk.injEq]
        refine ⟨by omega, by omega, ?_⟩
        rw [Nat.mod_add_mod]
        congr 1
        omega
      · rw [hiveWalk, if_pos hcondA, if_neg hhive,
           ih (height - 1) hc (tc + 1) targetSum hrl' hsum,
           hiveWindowLen, if_pos hcond, if_neg hhive]
        rw [List.take_succ_cons, List.filter_cons_of_neg (by simpa using hhive)]
        simp only [Prod.mk.injEq]
        refine ⟨trivial, by omega, trivial⟩
    · have hcondA : ¬(hc < p.hiveDifficultyWindow ∧ rest ≠ [] ∧ p.minHiveCheckBlock ≤ height) := by
        intro h
        exact hcond ⟨h.1, h.2.2⟩
      rw [hiveWalk, if_neg hcondA, hiveWindowLen, if_neg hcond]
      simp [Nat.mod_eq_of_lt hsum]

/-- C4: for every chain ending at the genesis block (length
`tipHeight + 1`) and every parameterization with `minHiveCheckBlock ≥ 1`,
`GetNextHiveWorkRequired` walks backward from the tip until
`hiveDifficultyWindow` Hive blocks are counted or the height falls below
`minHiveCheckBlock`; if no Hive block is found in that window it returns
the compact encoding of `powLimitHive`, and otherwise it returns the
average Hive-block target (their summed targets divided by
`hiveBlockCount`) multiplied by `totalBlockCount` (mod `2 ^ 256`) and
divided by `hiveBlockCount * hiveBlockSpacingTarget`, clamped to
`powLimitHive`, in compact encoding. -/
theorem GetNextHiveWorkRequired_spec (p : ConsensusParams) (chain : List BlockIndexData)
    (tipHeight : Nat) (hlen : chain.length = tipHeight + 1)
    (hmin : 1 ≤ p.minHiveCheckBlock) :
    GetNextHiveWorkRequired p chain tipHeight =
      (let totalBlockCount := hiveWindowLen p chain tipHeight 0
       let hiveBlocks := (chain.take totalBlockCount).filter (IsHiveMined p)
       let hiveBlockCount := hiveBlocks.length
       let targetSum := (hiveBlocks.map (fun b => SetCompactValue b.nBits)).sum
       if hiveBlockCount = 0 then GetCompact p.powLimitHive
       else GetCompact (min ((targetSum % U256 / hiveBlockCount * totalBlockCount) % U256 /
         (hiveBlockCount * p.hiveBlockSpacingTarget)) p.powLimitHive)) := by
  have hU : (0 : Nat) < U256 := by norm_num [U256]
  unfold GetNextHiveWorkRequired
  rw [hiveWalk_eq p hmin chain tipHeight 0 0 0 hlen hU]
  simp only [Nat.zero_add]

/-- A four-block chain (tip first, genesis last): Hive, PoW, Hive, PoW,
each with compact bits `0x03000100` (target 256). -/
def demoHiveChain : List BlockIndexData :=
  [⟨7, 0x03000100, 0⟩, ⟨0, 0x03000100, 0⟩, ⟨7, 0x03000100, 0⟩, ⟨0, 0x03000100, 0⟩]

/-- C4 witness: concrete run of the retarget theorem on `demoHiveChain`
at tip height 3 with `demoParams` (window 2, `minHiveCheckBlock` 1,
spacing target 2). -/
theorem GetNextHiveWorkRequired_spec_witness :
    demoHiveChain.length = 3 + 1 ∧ 1 ≤ demoParams.minHiveCheckBlock ∧
    GetNextHiveWorkRequired demoParams demoHiveChain 3 =
      (let totalBlockCount := hiveWindowLen demoParams demoHiveChain 3 0
       let hiveBlocks := (demoHiveChain.take totalBlockCount).filter (IsHiveMined demoParams)
       let hiveBlockCount := hiveBlocks.length
       let targetSum := (hiveBlocks.map (fun b => SetCompactValue b.nBits)).sum
       if hiveBlockCount = 0 then GetCompact demoParams.powLimitHive
       else GetCompact (min ((targetSum % U256 / hiveBlockCount * totalBlockCount) % U256 /
         (hiveBlockCount * demoParams.hiveBlockSpacingTarget)) demoParams.powLimitHive)) :=
  ⟨by decide, by decide, GetNextHiveWorkRequired_spec demoParams demoHiveChain 3
    (by decide) (by decide)⟩

/-!
PoW difficulty retarget (`GetNextWorkRequired`, `src/pow.cpp`
lines 27-86).  After the initial-distribution and testnet-min-difficulty
early outs, the code skips Hive-mined blocks at the tip, then runs 24 loop
iterations, each skipping Hive-mined blocks and consuming one PoW block:
it adds `target / 24` to the running average (256-bit arithmetic) and
steps to the predecessor.  The timespan is measured from the post-skip tip
time to the time of the block just behind the 24th PoW block, clamped to
`[targetTimespan/3, targetTimespan*3]` with
`targetTimespan = 24 * nPowTargetSpacing` (`int64_t` arithmetic,
truncating division).  Each `assert(pindex->pprev)` is modelled by
returning `none` when the list runs out.
-/

/-- The 24-iteration averaging loop of `GetNextWorkRequired`
(`src/pow.cpp` lines 53-65): skip Hive-mined blocks, add
`SetCompact(nBits) / 24` of the PoW block found (mod `2 ^ 256`), assert a
predecessor and step to it.  Returns the accumulated sum and the remaining
chain, whose head is the block the timespan is measured against. -/
def powLoop (p : ConsensusParams) : Nat → List BlockIndexData → Nat → Option (Nat × List BlockIndexData)
  | 0, chain, targetSum => some (targetSum, chain)
  | i + 1, chain, targetSum =>
    match chain.dropWhile (IsHiveMined p) with
    | [] => none
    | b :: rest =>
      if rest = [] then none
      else powLoop p i rest ((targetSum + SetCompactValue b.nBits / 24) % U256)

/-- Embedding of `GetNextWorkRequired` (`src/pow.cpp` lines 27-86).
`tipHeight` is `pindexLast->nHeight` and `blockTime` is
`pblock->GetBlockTime()`.  Returns `none` when one of the code's
assertions fails (null `pindexLast` or a missing predecessor). -/
def GetNextWorkRequired (p : ConsensusParams) (chain : List BlockIndexData)
    (tipHeight : Nat) (blockTime : Int) : Option Nat :=
  match chain with
  | [] => none
  | tip :: _ =>
    if tipHeight < p.lastInitialDistributionHeight then
      some (GetCompact p.powLimitInitialDistribution)
    else if p.fPowAllowMinDifficultyBlocks ∧ blockTime > tip.nTime + p.nPowTargetSpacing * 10 then
      some (GetCompact p.powLimit)
    else
      match (chain.dropWhile (IsHiveMined p)).head? with
      | none => none
      | some tipPow =>
        match powLoop p 24 (chain.dropWhile (IsHiveMined p)) 0 with
        | none => none
        | some (targetSum, final) =>
          match final.head? with
          | none => none
          | some oldest =>
            let nTargetTimespan : Int := 24 * p.nPowTargetSpacing
            let actual0 : Int := tipPow.nTime - oldest.nTime
            let actual1 : Int :=
              if actual0 < nTargetTimespan.tdiv 3 then nTargetTimespan.tdiv 3 else actual0
            let actual2 : Int :=
              if actual1 > nTargetTimespan * 3 then nTargetTimespan * 3 else actual1
            some (GetCompact (min ((targetSum * actual2.toNat) % U256 / nTargetTimespan.toNat)
              p.powLimit))

/-- A prefix that the averaging loop consumes completely for `i` PoW
blocks: interleaved Hive runs and exactly `i` PoW blocks, ending with the
`i`-th PoW block. -/
def consumedPre (p : ConsensusParams) : Nat → List BlockIndexData → Bool
  | 0, l => l.isEmpty
  | _ + 1, [] => false
  | i + 1, b :: rest =>
    if IsHiveMined p b then consumedPre p (i + 1) rest else consumedPre p i rest

/-- The averaging loop consumes exactly a `consumedPre` prefix when at
least one block follows it: it sums `target / 24` over the PoW blocks of
the prefix (mod `2 ^ 256`) and stops with the remaining chain. -/
theorem powLoop_eq (p : ConsensusParams) :
    ∀ (pre : List BlockIndexData) (i : Nat) (post : List BlockIndexData) (targetSum : Nat),
      targetSum < U256 → consumedPre p i pre = true → post ≠ [] →
      powLoop p i (pre ++ post) targetSum =
        some ((targetSum + ((pre.filter (fun b => !(IsHiveMined p b))).map
          (fun b => SetCompactValue b.nBits / 24)).sum) % U256, post) := by
  intro pre
  induction pre with
  | nil =>
    intro i post ts hts hpre hpost
    cases i with
    | zero =>
      simp only [List.nil_append, powLoop, List.filter_nil, List.map_nil, List.sum_nil]
      rw [Nat.add_zero, Nat.mod_eq_of_lt hts]
    | succ j => simp [consumedPre] at hpre
  | cons b rest ih =>
    intro i post ts hts hpre hpost
    cases i with
    | zero => simp [consumedPre] at hpre
    | succ j =>
      by_cases hhive : IsHiveMined p b = true
      · rw [consumedPre, if_pos hhive] at hpre
        have hstep : powLoop p (j + 1) ((b :: rest) ++ post) ts =
            powLoop p (j + 1) (rest ++ post) ts := by
          simp only [powLoop, List.cons_append, List.dropWhile_cons_of_pos hhive]
        rw [hstep, ih (j + 1) post ts hts hpre hpost,
          List.filter_cons_of_neg (by simp [hhive])]
      · rw [consumedPre, if_neg hhive] at hpre
        have hne2 : rest ++ post ≠ [] := by
          intro h
          exact hpost (List.append_eq_nil.mp h).2
        have hstep : powLoop p (j + 1) ((b :: rest) ++ post) ts =
            powLoop p j (rest ++ post) ((ts + SetCompactValue b.nBits / 24) % U256) := by
          simp only [powLoop, List.cons_append,
            List.dropWhile_cons_of_neg (by simpa using hhive)]
          rw [if_neg hne2]
        rw [hstep, ih j post _ (Nat.mod_lt _ (by norm_num [U256])) hpre hpost,
          List.filter_cons_of_pos (by simp [hhive])]
        simp only [List.map_cons, List.sum_cons, Option.some.injEq, Prod.mk.injEq]
        refine ⟨?_, trivial⟩
        rw [Nat.mod_add_mod]
        congr 1
        omega

/-- Composition of the two clamping ifs of `GetNextWorkRequired`
(`src/pow.cpp` lines 73-76) as a clamp to the interval `[lo, hi]`. -/
theorem clamp_ifs_eq (x lo hi : Int) :
    (if (if x < lo then lo else x) > hi then hi else (if x < lo then lo else x)) =
      min (max lo x) hi := by
  rcases le_or_lt lo x with h | h
  · rw [if_neg (not_lt.mpr h), max_eq_right h]
    rcases le_or_lt x hi with h2 | h2
    · rw [if_neg (not_lt.mpr h2), min_eq_left h2]
    · rw [if_pos h2, min_eq_right h2.le]
  · rw [if_pos h, max_eq_left h.le]
    rcases le_or_lt lo hi with h2 | h2
    · rw [if_neg (not_lt.mpr h2), min_eq_left h2]
    · rw [if_pos h2, min_eq_right h2.le]

/-- C5: past the early outs (tip at or beyond the initial distribution,
min-difficulty off), when the chain below the tip decomposes — after the
Hive-skip at the tip — into a prefix containing exactly 24 PoW blocks
(interspersed with Hive blocks) followed by at least one further block,
`GetNextWorkRequired` averages the targets of those 24 PoW blocks as
`Σ (target/24)` (mod `2 ^ 256`), clamps the actual timespan
`tipTime − oldestTime` to `[targetTimespan/3, targetTimespan·3]` with
`targetTimespan = 24 · nPowTargetSpacing`, and returns
`averageTarget · actualTimespan / targetTimespan` (mod `2 ^ 256`), clamped
to `powLimit`, in compact encoding. -/
theorem GetNextWorkRequired_spec (p : ConsensusParams) (chain : List BlockIndexData)
    (tipHeight : Nat) (blockTime : Int) (tipPow oldest : BlockIndexData)
    (preRest postRest : List BlockIndexData)
    (hdist : p.lastInitialDistributionHeight ≤ tipHeight)
    (hmind : p.fPowAllowMinDifficultyBlocks = false)
    (_hsp : 0 ≤ p.nPowTargetSpacing)
    (hsplit : chain.dropWhile (IsHiveMined p) = tipPow :: (preRest ++ oldest :: postRest))
    (hpre : consumedPre p 24 (tipPow :: preRest) = true) :
    GetNextWorkRequired p chain tipHeight blockTime =
      (let nTargetTimespan : Int := 24 * p.nPowTargetSpacing
       let averageTarget := (((tipPow :: preRest).filter (fun b => !(IsHiveMined p b))).map
           (fun b => SetCompactValue b.nBits / 24)).sum % U256
       let actualTimespan := min (max (nTargetTimespan.tdiv 3) (tipPow.nTime - oldest.nTime))
         (nTargetTimespan * 3)
       some (GetCompact (min ((averageTarget * actualTimespan.toNat) % U256 /
         nTargetTimespan.toNat) p.powLimit))) := by
  cases chain with
  | nil => simp at hsplit
  | cons tip restChain =>
    show (if tipHeight < p.lastInitialDistributionHeight then
        some (GetCompact p.powLimitInitialDistribution)
      else if p.fPowAllowMinDifficultyBlocks ∧
          blockTime > tip.nTime + p.nPowTargetSpacing * 10 then
        some (GetCompact p.powLimit)
      else
        match ((tip :: restChain).dropWhile (IsHiveMined p)).head? with
        | none => none
        | some tipPow =>
          match powLoop p 24 ((tip :: restChain).dropWhile (IsHiveMined p)) 0 with
          | none => none
          | some (targetSum, final) =>
            match final.head? with
            | none => none
            | some oldest =>
              let nTargetTimespan : Int := 24 * p.nPowTargetSpacing
              let actual0 : Int := tipPow.nTime - oldest.nTime
              let actual1 : Int :=
                if actual0 < nTargetTimespan.tdiv 3 then nTargetTimespan.tdiv 3 else actual0
              let actual2 : Int :=
                if actual1 > nTargetTimespan * 3 then nTargetTimespan * 3 else actual1
              some (GetCompact (min ((targetSum * actual2.toNat) % U256 /
                nTargetTimespan.toNat) p.powLimit))) = _
    rw [if_neg (by omega), if_neg (by simp [hmind]), hsplit]
    rw [show tipPow :: (preRest ++ oldest :: postRest) =
      (tipPow :: preRest) ++ (oldest :: postRest) from rfl]
    rw [powLoop_eq p (tipPow :: preRest) 24 (oldest :: postRest) 0
      (by norm_num [U256]) hpre (by simp)]
    simp only [List.head?_cons, List.cons_append, Nat.zero_add]
    rw [clamp_ifs_eq]

/-- A PoW block with compact bits `0x03000100` (target 256) at time 100. -/
def demoPowBlock : BlockIndexData := ⟨0, 0x03000100, 100⟩

/-- A chain of 26 identical PoW blocks. -/
def demoPowChain : List BlockIndexData := List.replicate 26 demoPowBlock

/-- C5 witness: concrete run of the retarget theorem on 26 PoW blocks with
`demoParams`: the first 24 blocks are averaged and the 25th supplies the
oldest time. -/
theorem GetNextWorkRequired_spec_witness :
    demoParams.lastInitialDistributionHeight ≤ 25 ∧
    demoParams.fPowAllowMinDifficultyBlocks = false ∧
    (0 : Int) ≤ demoParams.nPowTargetSpacing ∧
    demoPowChain.dropWhile (IsHiveMined demoParams) =
      demoPowBlock :: (List.replicate 23 demoPowBlock ++
        demoPowBlock :: List.replicate 1 demoPowBlock) ∧
    consumedPre demoParams 24 (demoPowBlock :: List.replicate 23 demoPowBlock) = true ∧
    GetNextWorkRequired demoParams demoPowChain 25 0 =
      (let nTargetTimespan : Int := 24 * demoParams.nPowTargetSpacing
       let averageTarget := (((demoPowBlock :: List.replicate 23 demoPowBlock).filter
           (fun b => !(IsHiveMined demoParams b))).map
           (fun b => SetCompactValue b.nBits / 24)).sum % U256
       let actualTimespan := min (max (nTargetTimespan.tdiv 3)
           (demoPowBlock.nTime - demoPowBlock.nTime)) (nTargetTimespan * 3)
       some (GetCompact (min ((averageTarget * actualTimespan.toNat) % U256 /
         nTargetTimespan.toNat) demoParams.powLimit))) :=
  ⟨by decide, by decide, by decide, by decide, by decide,
   GetNextWorkRequired_spec demoParams demoPowChain 25 0 demoPowBlock demoPowBlock
     (List.replicate 23 demoPowBlock) (List.replicate 1 demoPowBlock)
     (by decide) (by decide) (by decide) (by decide) (by decide)⟩
